import Mathlib

/-!
Shallow embedding of the runtime bridge of `src/emulator.ts` (the `Emulator`
class): the command channel (`sendCommand` / `stdin`), the file-ready poller
(`waitForEmscriptenFile`), canonical state-path derivation (`stateFileName` /
`stateThumbnailFileName`), the config serializer (`writeConfigFile`), and the
lifecycle operations (`pause` / `resume` / `restart` / `exit` / `resize` /
`saveState`).

JavaScript strings are embedded as `List Char`; byte arrays as `List Nat`.
-/

namespace Emu

/-! ## JS string primitives used by the source -/

/-- JS `Array.prototype`/`String.prototype.slice(0, end)`: a negative `end`
counts from the end of the string (`max (len + end) 0`), a non-negative `end`
truncates at `end`. -/
def jsSliceTo (l : List Char) (e : Int) : List Char :=
  if e < 0 then l.take (l.length - (-e).toNat) else l.take e.toNat

/-- Index of the last occurrence of `c`, as in JS `lastIndexOf`:
`some i` for the largest `i` with `l[i] = c`. -/
def lastIndexOfAux (c : Char) : List Char → Option Nat
  | [] => none
  | x :: xs =>
    match lastIndexOfAux c xs with
    | some i => some (i + 1)
    | none => if x = c then some 0 else none

/-- JS `String.prototype.lastIndexOf` for a single character: the index of its
last occurrence, or `-1` when absent. -/
def jsLastIndexOf (c : Char) (l : List Char) : Int :=
  match lastIndexOfAux c l with
  | some i => (i : Int)
  | none => -1

/-! ## Canonical state-path derivation (`Emulator.stateFileName`, source lines 77-86)

`coreFullNameMap` lives in `./constants`, outside the given sources; the
looked-up full name is therefore passed as an argument, which is all the
claims quantify over. -/

/-- Source: `raUserdataDir` from the source. -/
def raUserdataDir : List Char := "/home/web_user/retroarch/userdata/".data

/-- Source: `fileName.slice(0, fileName.lastIndexOf('.'))` from the source. -/
def romBaseName (fileName : List Char) : List Char :=
  jsSliceTo fileName (jsLastIndexOf '.' fileName)

/-- Source: `Emulator.stateFileName`: `${raUserdataDir}states/${coreFullName}/${baseName}.state`. -/
def stateFileName (coreFullName fileName : List Char) : List Char :=
  raUserdataDir ++ "states/".data ++ coreFullName ++ "/".data ++
    romBaseName fileName ++ ".state".data

/-- Source: `Emulator.stateThumbnailFileName`: the state path with `.png` appended. -/
def stateThumbnailFileName (coreFullName fileName : List Char) : List Char :=
  stateFileName coreFullName fileName ++ ".png".data

/-! ## Command channel (`Emulator.sendCommand` lines 257-260, `Emulator.stdin` lines 263-278)

A pending command is a byte sequence paired with a read cursor; the message
queue is the `messageQueue` array of pairs. `TextEncoder.encode` is UTF-8; the
command names fed to it are ASCII, where UTF-8 code units coincide with code
points, so encoding is `Char.toNat` per character. -/

/-- The byte sequence `encoder.encode(msg + "\n")` of `sendCommand`. -/
def encodeCommand (name : List Char) : List Nat :=
  (name ++ ['\n']).map Char.toNat

/-- The `messageQueue` field: pairs of byte array and cursor. -/
abbrev MsgQueue := List (List Nat × Nat)

/-- Source: `Emulator.sendCommand`: push `[bytes, 0]` at the tail of the queue. -/
def sendCommand (q : MsgQueue) (name : List Char) : MsgQueue :=
  q ++ [(encodeCommand name, 0)]

/-- Source: `Emulator.stdin`: drop fully-consumed commands from the front, then return
the byte at the front command's cursor and advance it, or `none` (JS `null`,
the "no data" sentinel) when the queue empties. -/
def stdin : MsgQueue → Option Nat × MsgQueue
  | [] => (none, [])
  | (msg, idx) :: rest =>
    if msg.length ≤ idx then stdin rest
    else (some (msg.getD idx 0), (msg, idx + 1) :: rest)

/-- Run `stdin` `n` times, collecting the returned values. -/
def pollN : Nat → MsgQueue → List (Option Nat) × MsgQueue
  | 0, q => ([], q)
  | n + 1, q =>
    let p := stdin q
    let r := pollN n p.2
    (p.1 :: r.1, r.2)

/-- One caller-side step on the command channel: a `send` or a poll. -/
inductive ChannelOp where
  | send (name : List Char)
  | poll
deriving DecidableEq

/-- Apply one channel operation to the queue (the poll result is discarded). -/
def applyChannelOp (q : MsgQueue) : ChannelOp → MsgQueue
  | .send name => sendCommand q name
  | .poll => (stdin q).2

/-- The queue after a sequence of channel operations, starting from the empty
queue a fresh `Emulator` holds. -/
def runChannel (ops : List ChannelOp) : MsgQueue :=
  ops.foldl applyChannelOp []

/-- Every queued command other than the front one has cursor `0`. -/
def tailUntouched (q : MsgQueue) : Bool :=
  q.tail.all fun p => p.2 == 0

/-! ## File-ready poller (`Emulator.waitForEmscriptenFile`, source lines 352-374)

The filesystem is abstracted as a read source indexed by attempt number:
`read k = some bytes` when `FS.readFile` succeeds on attempt `k`, and
`read k = none` when it throws (the source logs and continues). The real
`await delay(delayTime)` only spends time, so the delays are recorded as data. -/

/-- One read attempt's outcome: the bytes read, or `none` for a thrown read. -/
abbrev ReadSource := Nat → Option (List Nat)

/-- Outcome of the polling loop body: the delay trace, the number of read
attempts made, the final `isFinished` flag and the final `buffer`. -/
structure GoResult where
  delays : List Nat
  attempts : Nat
  finished : Bool
  buffer : Option (List Nat)
deriving DecidableEq

/-- Source: `isFinished = buffer?.byteLength > 0 && buffer?.byteLength === newBuffer.byteLength`:
an undefined `buffer` compares false. -/
def isStable (buffer : Option (List Nat)) (newBuffer : List Nat) : Bool :=
  match buffer with
  | some b => 0 < b.length && b.length == newBuffer.length
  | none => false

/-- The `while (retryTimes <= maxRetries && !isFinished)` loop: `k` is
`retryTimes`, and the fuel is the number of loop iterations still admitted by
the counter bound, `maxRetries + 1 - k`. Each iteration waits
`min(100 * 2 ** retryTimes, 1000)`, reads, updates the stability flag and the
buffer (a thrown read leaves the buffer as is), and increments the counter. -/
def pollGo (read : ReadSource) : Nat → Nat → Option (List Nat) → GoResult
  | 0, _, buffer => ⟨[], 0, false, buffer⟩
  | fuel + 1, k, buffer =>
    let d := min (100 * 2 ^ k) 1000
    match read k with
    | some newBuffer =>
      if isStable buffer newBuffer then ⟨[d], 1, true, some newBuffer⟩
      else
        let r := pollGo read fuel (k + 1) (some newBuffer)
        ⟨d :: r.delays, r.attempts + 1, r.finished, r.buffer⟩
    | none =>
      let r := pollGo read fuel (k + 1) buffer
      ⟨d :: r.delays, r.attempts + 1, r.finished, r.buffer⟩

/-- Result of `waitForEmscriptenFile`: the recorded backoff delays, the number
of read attempts, and `some bytes` on success or `none` for the thrown
`Error('fs timeout')`. -/
structure PollRun where
  delays : List Nat
  attempts : Nat
  result : Option (List Nat)
deriving DecidableEq

/-- Source: `Emulator.waitForEmscriptenFile` with retry ceiling `maxRetries` (the
source fixes `maxRetries = 30`): run the loop from `retryTimes = 0` with no
previous buffer; if the loop ends without `isFinished`, throw (`result = none`),
otherwise return the buffer. -/
def waitForEmscriptenFile (read : ReadSource) (maxRetries : Nat) : PollRun :=
  let r := pollGo read (maxRetries + 1) 0 none
  ⟨r.delays, r.attempts, if r.finished then r.buffer else none⟩

/-! ## Lifecycle controller state (`Emulator`, source lines 65-180)

The class fields the claims depend on: `gameStatus` (declared, initialised to
`'initial'`), `processStatus` (assigned by `exit()` but never declared nor
read, hence `none` until then), `messageQueue`, whether `this.emscripten` has
been set, the resolved ROM file names, the looked-up core full name, and the
`savestate_thumbnail_enable` option. Emscripten-side effects (native `exit`,
`FS.unmount`, listener removal, DOM cleanup, `FS.unlink`) act outside this
state and are not represented; `FS.readFile` is the `ReadSource` oracle. -/

/-- The `GameStatus` union type of the source. -/
inductive GameStatus where
  | initial
  | paused
  | running
deriving DecidableEq

/-- Kinds of exception a lifecycle operation can raise. `typeError` is the JS
TypeError from destructuring an undefined `this.emscripten` (or an empty
`this.options.rom`); `fsTimeout` is the poller's `Error('fs timeout')`;
`lifecycleMisuse` is the error kind the specification demands after `exit()` —
no code path produces it. -/
inductive JsError where
  | typeError
  | fsTimeout
  | lifecycleMisuse
deriving DecidableEq

/-- The `Emulator` instance fields relevant to the claims. -/
structure EmulatorState where
  gameStatus : GameStatus
  processStatus : Option (List Char)
  messageQueue : MsgQueue
  hasEmscripten : Bool
  romFileNames : List (List Char)
  coreFullName : List Char
  savestateThumbnailEnable : Bool
deriving DecidableEq

/-- Source: `Emulator.sendCommand` as a state step (field update only; it cannot throw). -/
def sendCommandS (s : EmulatorState) (name : List Char) : EmulatorState :=
  { s with messageQueue := sendCommand s.messageQueue name }

/-- Source: `Emulator.resume`: toggle only when currently `'paused'`, then set
`gameStatus = 'running'`. -/
def resume (s : EmulatorState) : EmulatorState :=
  let s1 := if s.gameStatus = .paused then sendCommandS s "PAUSE_TOGGLE".data else s
  { s1 with gameStatus := .running }

/-- Source: `Emulator.pause`: toggle only when currently `'running'`, then set
`gameStatus = 'paused'`. -/
def pause (s : EmulatorState) : EmulatorState :=
  let s1 := if s.gameStatus = .running then sendCommandS s "PAUSE_TOGGLE".data else s
  { s1 with gameStatus := .paused }

/-- Source: `Emulator.restart`: send `RESET`, then `resume()`. -/
def restart (s : EmulatorState) : EmulatorState :=
  resume (sendCommandS s "RESET".data)

/-- Source: `Emulator.exit`: record `processStatus = 'terminated'`; the emscripten
teardown and DOM cleanup touch no field of this state (the source does not
clear `this.emscripten`, `gameStatus` or `messageQueue`). -/
def exit (s : EmulatorState) : EmulatorState :=
  { s with processStatus := some "terminated".data }

/-- Source: `Emulator.pause` never throws: its body only reads and writes fields. -/
def pauseE (s : EmulatorState) : Except JsError EmulatorState :=
  .ok (pause s)

/-- Source: `Emulator.resume` never throws. -/
def resumeE (s : EmulatorState) : Except JsError EmulatorState :=
  .ok (resume s)

/-- Source: `Emulator.restart` never throws. -/
def restartE (s : EmulatorState) : Except JsError EmulatorState :=
  .ok (restart s)

/-- Source: `Emulator.sendCommand` never throws. -/
def sendCommandE (s : EmulatorState) (name : List Char) : Except JsError EmulatorState :=
  .ok (sendCommandS s name)

/-- Source: `Emulator.resize`: `const { Module } = this.emscripten` throws a TypeError
when the module is not instantiated; otherwise `Module.setCanvasSize` changes
no field of this state. -/
def resize (s : EmulatorState) (_width _height : Int) : Except JsError EmulatorState :=
  if s.hasEmscripten then .ok s else .error .typeError

/-- Source: `Emulator.clearStateFile`: `const { FS } = this.emscripten` is evaluated
before the `try` block, so an undefined module throws a TypeError; inside the
`try`, both unlinks (and the `stateFileName` getter itself) have every failure
swallowed by the empty `catch`. -/
def clearStateFileE (s : EmulatorState) : Except JsError EmulatorState :=
  if s.hasEmscripten then .ok s else .error .typeError

/-- The `stateFileName` getter: `const [{ fileName }] = this.options.rom`
throws a TypeError on an empty ROM list. -/
def stateFilePathE (s : EmulatorState) : Except JsError (List Char) :=
  match s.romFileNames with
  | [] => .error .typeError
  | f :: _ => .ok (stateFileName s.coreFullName f)

/-- Source: `Emulator.saveState`. `fsRead path` is the read oracle the poller sees for
`path`. The result value is `none` exactly when the source resolves to
`undefined` through the `if (!this.emscripten) return` guard; otherwise it is
the state bytes paired with the optional thumbnail bytes. -/
def saveStateE (fsRead : List Char → ReadSource) (s : EmulatorState) :
    Except JsError (EmulatorState × Option (List Nat × Option (List Nat))) :=
  match clearStateFileE s with
  | .error e => .error e
  | .ok s0 =>
    if s0.hasEmscripten = false then .ok (s0, none)
    else
      let s1 := sendCommandS s0 "SAVE_STATE".data
      match stateFilePathE s1 with
      | .error e => .error e
      | .ok path =>
        if s1.savestateThumbnailEnable then
          match (waitForEmscriptenFile (fsRead path) 30).result,
              (waitForEmscriptenFile (fsRead (path ++ ".png".data)) 30).result with
          | some st, some th => .ok (s1, some (st, some th))
          | _, _ => .error .fsTimeout
        else
          match (waitForEmscriptenFile (fsRead path) 30).result with
          | some st => .ok (s1, some (st, none))
          | none => .error .fsTimeout

/-! ## Config serializer (`Emulator.writeConfigFile`, source lines 280-291)

The source wraps every value in `__...__` via a template literal, runs
`ini.stringify(config, { whitespace: true, platform: 'linux' })` on the now
all-string flat object, and turns every `__` back into a double quote with
`replaceAll`. The `ini` package's `stringify` renders a flat object as
`safe(key) + ' = ' + safe(value) + '\n'` lines, where `safe` JSON-stringifies a
string that contains `=`/CR/LF, starts with `[`, is already quoted, or is not
trimmed, and otherwise backslash-escapes `;` and `#`. -/

/-- A scalar retroarch config value. -/
inductive ConfigValue where
  | boolVal (b : Bool)
  | numVal (n : Int)
  | strVal (s : List Char)
deriving DecidableEq

/-- JS template-literal rendering of a scalar (`${value}`). -/
def valueText : ConfigValue → List Char
  | .boolVal true => "true".data
  | .boolVal false => "false".data
  | .numVal n => (toString n).data
  | .strVal s => s

/-- The `__${value}__` wrapping the source applies to every config entry. -/
def wrapMarkers (v : List Char) : List Char :=
  "__".data ++ v ++ "__".data

/-- The single-quote character, JS `'`. -/
def singleQuote : Char := Char.ofNat 39

/-- Source: `isQuoted` from the `ini` package: surrounded by double or single quotes. -/
def isQuotedStr (l : List Char) : Bool :=
  match l.head?, l.getLast? with
  | some a, some b => (a = '"' && b = '"') || (a = singleQuote && b = singleQuote)
  | _, _ => false

/-- The JS whitespace class stripped by `String.prototype.trim`: WhiteSpace
(TAB, VT, FF, SPACE, NBSP, ZWNBSP/BOM, the Unicode space separators) together
with the LineTerminators (LF, CR, LS, PS). -/
def jsIsWhitespace (c : Char) : Bool :=
  c = '\t' || c = '\n' || c = Char.ofNat 0x0B || c = Char.ofNat 0x0C || c = '\r' ||
  c = ' ' || c = Char.ofNat 0xA0 || c = Char.ofNat 0x1680 ||
  (0x2000 ≤ c.toNat && c.toNat ≤ 0x200A) ||
  c = Char.ofNat 0x2028 || c = Char.ofNat 0x2029 || c = Char.ofNat 0x202F ||
  c = Char.ofNat 0x205F || c = Char.ofNat 0x3000 || c = Char.ofNat 0xFEFF

/-- JS `String.prototype.trim`: drop JS whitespace from both ends. -/
def jsTrim (l : List Char) : List Char :=
  ((l.dropWhile jsIsWhitespace).reverse.dropWhile jsIsWhitespace).reverse

/-- One character of JSON string escaping, as in `JSON.stringify`. -/
def jsonEscapeChar (c : Char) : List Char :=
  if c = '"' then ['\\', '"']
  else if c = '\\' then ['\\', '\\']
  else if c = '\n' then ['\\', 'n']
  else if c = '\r' then ['\\', 'r']
  else if c = '\t' then ['\\', 't']
  else if c.toNat < 32 then
    ['\\', 'u', '0', '0', (Nat.digitChar (c.toNat / 16)), (Nat.digitChar (c.toNat % 16))]
  else [c]

/-- Source: `JSON.stringify` of a string. -/
def jsonQuote (l : List Char) : List Char :=
  '"' :: l.flatMap jsonEscapeChar ++ ['"']

/-- Source: `val.split(';').join('\\;').split('#').join('\\#')` from `ini`'s `safe`. -/
def escapeSemiHash (l : List Char) : List Char :=
  l.flatMap fun c => if c = ';' then ['\\', ';'] else if c = '#' then ['\\', '#'] else [c]

/-- Source: `safe` from the `ini` package, on strings. -/
def iniSafe (l : List Char) : List Char :=
  if l.any (fun c => c = '=' || c = '\r' || c = '\n') || l.head? = some '[' ||
      (decide (1 < l.length) && isQuotedStr l) || decide (jsTrim l ≠ l) then
    jsonQuote l
  else
    escapeSemiHash l

/-- Source: `ini.stringify` with `whitespace: true` and `platform: 'linux'` on a flat
object whose values are all strings: one `safe(key) = safe(value)` line per
entry, LF-terminated, in object (insertion) order. -/
def iniStringifyFlat (config : List (List Char × List Char)) : List Char :=
  config.flatMap fun kv => iniSafe kv.1 ++ " = ".data ++ iniSafe kv.2 ++ ['\n']

/-- Source: `configContent.replaceAll('__', '"')`: scan left to right, replacing each
non-overlapping `__` with `"`. -/
def replaceAllUU : List Char → List Char
  | [] => []
  | [c] => [c]
  | c :: d :: rest =>
    if c = '_' && d = '_' then '"' :: replaceAllUU rest
    else c :: replaceAllUU (d :: rest)

/-- The config file text `Emulator.writeConfigFile` writes for a flat config:
wrap every value in `__...__`, stringify, then replace every `__` with `"`. -/
def writeConfigFileContent (config : List (List Char × ConfigValue)) : List Char :=
  replaceAllUU (iniStringifyFlat (config.map fun kv => (kv.1, wrapMarkers (valueText kv.2))))

/-! ## Concrete inputs used by counterexamples and witnesses -/

/-- Source: `boundConsecutiveEqual read bound` decides whether some two consecutive
polls, among attempts `0 ≤ k < bound`, both read successfully with identical
non-zero byte lengths. -/
def boundConsecutiveEqual (read : ReadSource) (bound : Nat) : Bool :=
  (List.range bound).any fun k =>
    match read k, read (k + 1) with
    | some b, some b2 => 0 < b.length && b.length == b2.length
    | _, _ => false

/-- A read source whose attempt 0 and attempt 2 read five bytes while
attempt 1 (and all later attempts) throw. -/
def gapRead : ReadSource := fun k =>
  if k = 0 then some [1, 2, 3, 4, 5] else if k = 2 then some [6, 7, 8, 9, 10] else none

/-- An instantiated emulator with a running game, one staged ROM. -/
def runningState : EmulatorState :=
  { gameStatus := .running, processStatus := none, messageQueue := [],
    hasEmscripten := true, romFileNames := ["pong1k.nes".data],
    coreFullName := "fceumm_libretro".data, savestateThumbnailEnable := true }

/-- Source: `runningState` before the emscripten module is instantiated. -/
def noModuleState : EmulatorState :=
  { runningState with hasEmscripten := false }

/-- Source: `runningState` with `savestate_thumbnail_enable` off. -/
def noThumbnailState : EmulatorState :=
  { runningState with savestateThumbnailEnable := false }

/-! ## Theorems -/

/-- C1, counterexample: `encoder.encode("PAUSE_TOGGLE\n")` has 13 bytes, not
the 15 the claim asserts, and on a queue holding only this command the 14th
poll already returns the "no data" sentinel instead of a 14th byte. -/
theorem sendPauseToggle_not_fifteen_bytes :
    (encodeCommand "PAUSE_TOGGLE".data).length = 13 ∧
    (encodeCommand "PAUSE_TOGGLE".data).length ≠ 15 ∧
    (pollN 15 (sendCommand [] "PAUSE_TOGGLE".data)).1 =
      (encodeCommand "PAUSE_TOGGLE".data).map some ++ [none, none] := by
  decide

/-- C1, amended: after `send("PAUSE_TOGGLE")` on an empty queue, the first
three polls return the ASCII bytes of "PAU" in order, the 4th continues with
'S', the first 13 polls return exactly the bytes of "PAUSE_TOGGLE\n", and the
14th poll returns the "no data" sentinel. -/
theorem sendPauseToggle_poll_sequence :
    (pollN 3 (sendCommand [] "PAUSE_TOGGLE".data)).1 = [some 80, some 65, some 85] ∧
    (pollN 4 (sendCommand [] "PAUSE_TOGGLE".data)).1 =
      [some 80, some 65, some 85, some 83] ∧
    (pollN 13 (sendCommand [] "PAUSE_TOGGLE".data)).1 =
      (encodeCommand "PAUSE_TOGGLE".data).map some ∧
    (pollN 14 (sendCommand [] "PAUSE_TOGGLE".data)).1 =
      (encodeCommand "PAUSE_TOGGLE".data).map some ++ [none] := by
  decide

/-- C2, counterexample: with retry ceiling 3 and a read source that always
throws, the poller performs 4 read attempts (the loop admits
`retryTimes = 0, 1, 2, 3`) before timing out — not the 3 the claim asserts. -/
theorem poller_ceiling_three_makes_four_attempts :
    (waitForEmscriptenFile (fun _ => none) 3).attempts = 4 ∧
    (waitForEmscriptenFile (fun _ => none) 3).result = none ∧
    (waitForEmscriptenFile (fun _ => none) 3).attempts ≠ 3 := by
  decide

/-- C5, counterexample: the poller declares `gapRead` stable (attempts 0 and 2
both read five bytes) although no two *consecutive* polls both succeed — the
poll between them throws. Stability compares against the previous *successful*
read, not the previous poll. -/
theorem poller_stabilizes_across_failed_poll :
    (waitForEmscriptenFile gapRead 30).result = some [6, 7, 8, 9, 10] ∧
    gapRead 1 = none ∧
    boundConsecutiveEqual gapRead 31 = false := by
  decide

/-- C3, counterexample: after `exit()` has recorded `processStatus =
'terminated'`, `pause()` raises no lifecycle-misuse error — it returns
normally, still flips `gameStatus` to `'paused'` and still enqueues the
`PAUSE_TOGGLE` bytes. -/
theorem pause_after_exit_executes :
    (exit runningState).processStatus = some "terminated".data ∧
    pauseE (exit runningState) =
      .ok { runningState with
            processStatus := some "terminated".data,
            gameStatus := .paused,
            messageQueue := [(encodeCommand "PAUSE_TOGGLE".data, 0)] } :=
  ⟨rfl, rfl⟩

/-- C3, amended: `exit()` records `processStatus = 'terminated'`, but no
operation consults it: `pause`, `resume`, `restart`, `sendCommand` and
`resize` invoked after `exit()` raise no lifecycle-misuse error and perform
exactly the effect they would have performed before `exit()` (`resize` can
only fail with the module-missing TypeError, terminated or not);
`gameStatus` transitions are still accepted after termination. -/
theorem ops_after_exit_still_execute (s : EmulatorState) (name : List Char) :
    (exit s).processStatus = some "terminated".data ∧
    pauseE (exit s) = .ok (exit (pause s)) ∧
    resumeE (exit s) = .ok (exit (resume s)) ∧
    restartE (exit s) = .ok (exit (restart s)) ∧
    sendCommandE (exit s) name = .ok (exit (sendCommandS s name)) ∧
    (pause (exit s)).gameStatus = .paused ∧
    (resume (exit s)).gameStatus = .running ∧
    (∀ w h, resize (exit s) w h = (resize s w h).map exit) ∧
    pauseE (exit s) ≠ .error .lifecycleMisuse ∧
    resumeE (exit s) ≠ .error .lifecycleMisuse := by
  refine ⟨?_, ?_, ?_, ?_, ?_, ?_, ?_, ?_, ?_, ?_⟩ <;>
    first
      | (intro w h
         cases hE : s.hasEmscripten <;> simp [resize, exit, hE, Except.map])
      | (cases h : s.gameStatus <;>
          simp [pauseE, resumeE, restartE, sendCommandE, pause, resume, restart,
            sendCommandS, exit, h])

/-- C4: `pause()` enqueues the native toggle exactly when the status is
`'running'` and `resume()` exactly when it is `'paused'` (so the toggle is
only sent when the status actually changes to or from `'running'`); both
always set their target status; and an immediately repeated `pause()`
enqueues nothing further, so two consecutive `pause()` calls from a running
game send the toggle exactly once. -/
theorem pause_toggle_only_on_change (s : EmulatorState) :
    ((pause s).messageQueue =
      if s.gameStatus = .running then sendCommand s.messageQueue "PAUSE_TOGGLE".data
      else s.messageQueue) ∧
    ((resume s).messageQueue =
      if s.gameStatus = .paused then sendCommand s.messageQueue "PAUSE_TOGGLE".data
      else s.messageQueue) ∧
    (pause s).gameStatus = .paused ∧
    (resume s).gameStatus = .running ∧
    (pause (pause s)).messageQueue = (pause s).messageQueue := by
  cases h : s.gameStatus <;> simp [pause, resume, sendCommandS, h]

/-- C6: the state path is a pure function of the core full name and the ROM
file name (the embedding takes no other input); for ROM `"pong1k.nes"` it is
`.../states/<coreFullName>/pong1k.state` for every core full name, and the
thumbnail path is always the state path with `.png` appended. -/
theorem statePath_pong1k (coreFullName : List Char) :
    stateFileName coreFullName "pong1k.nes".data =
      raUserdataDir ++ "states/".data ++ coreFullName ++ "/pong1k.state".data ∧
    (∀ fileName : List Char,
      stateThumbnailFileName coreFullName fileName =
        stateFileName coreFullName fileName ++ ".png".data) := by
  constructor
  · show raUserdataDir ++ "states/".data ++ coreFullName ++ "/".data ++
        romBaseName "pong1k.nes".data ++ ".state".data = _
    rw [show romBaseName "pong1k.nes".data = "pong1k".data from by decide]
    simp only [List.append_assoc]
    rfl
  · intro fileName
    rfl

/-- Source: `lastIndexOfAux` finds nothing when the character is absent. -/
theorem lastIndexOfAux_of_not_mem {c : Char} {l : List Char} (h : c ∉ l) :
    lastIndexOfAux c l = none := by
  induction l with
  | nil => rfl
  | cons x xs ih =>
    have hx : ¬x = c := fun e => h (e ▸ List.mem_cons_self x xs)
    have hxs : c ∉ xs := fun m => h (List.mem_cons_of_mem x m)
    simp [lastIndexOfAux, ih hxs, hx]

/-- C9: when the first ROM's file name contains no `.`, `lastIndexOf` returns
`-1` and `slice(0, -1)` drops the final character, so the derived base name is
the file name with its last character removed, and the state path embeds that
truncated name. -/
theorem statePath_no_dot (fileName : List Char) (h : '.' ∉ fileName) :
    romBaseName fileName = fileName.dropLast ∧
    ∀ coreFullName : List Char,
      stateFileName coreFullName fileName =
        raUserdataDir ++ "states/".data ++ coreFullName ++ "/".data ++
          fileName.dropLast ++ ".state".data := by
  have hb : romBaseName fileName = fileName.dropLast := by
    unfold romBaseName jsLastIndexOf
    rw [lastIndexOfAux_of_not_mem h]
    show jsSliceTo fileName (-1) = _
    unfold jsSliceTo
    norm_num
    rw [List.dropLast_eq_take]
  exact ⟨hb, fun coreFullName => by rw [stateFileName, hb]⟩

/-- C9, witness: the ROM named `"pong"` has no dot; its base name is `"pon"`
and its state path ends in `pon.state`. -/
theorem statePath_no_dot_witness :
    ('.' ∉ "pong".data) ∧
    romBaseName "pong".data = "pong".data.dropLast ∧
    stateFileName "fceumm_libretro".data "pong".data =
      "/home/web_user/retroarch/userdata/states/fceumm_libretro/pon.state".data :=
  ⟨by decide, (statePath_no_dot "pong".data (by decide)).1, by decide⟩

/-- C10: with `this.emscripten` still undefined, `saveState()` always rejects
with the TypeError thrown by `clearStateFile`'s destructuring — before the
`if (!this.emscripten) return` guard is reached; and no call of `saveState`
ever resolves to `undefined` through that guard. -/
theorem saveState_without_module_throws :
    (∀ (fsRead : List Char → ReadSource) (s : EmulatorState),
        s.hasEmscripten = false → saveStateE fsRead s = .error .typeError) ∧
    (∀ (fsRead : List Char → ReadSource) (s : EmulatorState)
        (r : EmulatorState × Option (List Nat × Option (List Nat))),
        saveStateE fsRead s = .ok r → r.2 ≠ none) := by
  constructor
  · intro fsRead s h
    simp [saveStateE, clearStateFileE, h]
  · intro fsRead s r h hr
    by_cases he : s.hasEmscripten
    · rw [saveStateE] at h
      simp only [clearStateFileE, he, if_true] at h
      rw [if_neg (by simp [he])] at h
      rcases hp : stateFilePathE (sendCommandS s "SAVE_STATE".data) with e | path <;>
        rw [hp] at h
      · exact Except.noConfusion h
      · by_cases ht : (sendCommandS s "SAVE_STATE".data).savestateThumbnailEnable <;>
          simp only [ht, if_true, if_false, Bool.false_eq_true] at h <;>
          split at h <;>
          first
            | exact Except.noConfusion h
            | (cases h with | refl => simp at hr)
    · rw [saveStateE] at h
      simp only [clearStateFileE, he] at h
      exact Except.noConfusion h

/-- C10, witness: a concrete pre-instantiation state rejects with the
TypeError, and a concrete successful save resolves to an actual result, not
`undefined`. -/
theorem saveState_without_module_throws_witness :
    saveStateE (fun _ _ => some [9]) noModuleState = .error .typeError ∧
    ((sendCommandS noThumbnailState "SAVE_STATE".data,
        (some ([9], none) : Option (List Nat × Option (List Nat)))).2 ≠ none) :=
  ⟨saveState_without_module_throws.1 (fun _ _ => some [9]) noModuleState rfl,
    saveState_without_module_throws.2 (fun _ _ => some [9]) noThumbnailState _ rfl⟩

/-- A poll on a queue whose entries all have cursor `0` leaves every non-front
entry at cursor `0`. -/
theorem stdin_of_all_zero {q : MsgQueue} (h : ∀ p ∈ q, p.2 = 0) :
    tailUntouched (stdin q).2 = true := by
  induction q with
  | nil => rfl
  | cons hd rest ih =>
    obtain ⟨msg, idx⟩ := hd
    by_cases hlen : msg.length ≤ idx
    · rw [show stdin ((msg, idx) :: rest) = stdin rest from by simp [stdin, hlen]]
      exact ih fun p hp => h p (List.mem_cons_of_mem _ hp)
    · rw [show stdin ((msg, idx) :: rest) =
          (some (msg.getD idx 0), (msg, idx + 1) :: rest) from by simp [stdin, hlen]]
      simp only [tailUntouched, List.tail_cons, List.all_eq_true, beq_iff_eq]
      exact fun p hp => h p (List.mem_cons_of_mem _ hp)

/-- A poll preserves the invariant that only the front entry may be partially
consumed. -/
theorem stdin_preserves_tailUntouched {q : MsgQueue} (h : tailUntouched q = true) :
    tailUntouched (stdin q).2 = true := by
  cases q with
  | nil => rfl
  | cons hd rest =>
    obtain ⟨msg, idx⟩ := hd
    have hrest : ∀ p ∈ rest, p.2 = 0 := by
      simpa [tailUntouched] using h
    by_cases hlen : msg.length ≤ idx
    · rw [show stdin ((msg, idx) :: rest) = stdin rest from by simp [stdin, hlen]]
      exact stdin_of_all_zero hrest
    · rw [show stdin ((msg, idx) :: rest) =
          (some (msg.getD idx 0), (msg, idx + 1) :: rest) from by simp [stdin, hlen]]
      simpa [tailUntouched] using hrest

/-- A send preserves the invariant: the appended command starts at cursor `0`. -/
theorem sendCommand_preserves_tailUntouched {q : MsgQueue} (name : List Char)
    (h : tailUntouched q = true) : tailUntouched (sendCommand q name) = true := by
  cases q with
  | nil => rfl
  | cons hd rest =>
    simp only [tailUntouched, sendCommand, List.cons_append, List.tail_cons,
      List.all_eq_true, beq_iff_eq] at h ⊢
    intro p hp
    rcases List.mem_append.1 hp with hm | hm
    · exact h p hm
    · rw [List.mem_singleton.1 hm]

/-- A poll never reorders the queue: the remaining commands are a suffix of
the previous ones. -/
theorem stdin_queue_isSuffix (q : MsgQueue) :
    (stdin q).2.map Prod.fst <:+ q.map Prod.fst := by
  induction q with
  | nil => exact List.suffix_refl _
  | cons hd rest ih =>
    obtain ⟨msg, idx⟩ := hd
    by_cases hlen : msg.length ≤ idx
    · rw [show stdin ((msg, idx) :: rest) = stdin rest from by simp [stdin, hlen]]
      exact ih.trans (List.suffix_cons _ _)
    · rw [show stdin ((msg, idx) :: rest) =
          (some (msg.getD idx 0), (msg, idx + 1) :: rest) from by simp [stdin, hlen]]
      exact List.suffix_refl _

/-- C8: after any sequence of sends and polls starting from the empty queue,
every entry other than the front one still has cursor `0` (so at most one
command — the front — is partially consumed); a send appends the encoded
command at the tail, and a poll only consumes from the front, keeping the
remaining commands in FIFO issuance order. -/
theorem commandQueue_invariant :
    (∀ ops : List ChannelOp, tailUntouched (runChannel ops) = true) ∧
    (∀ (q : MsgQueue) (name : List Char),
      (sendCommand q name).map Prod.fst = q.map Prod.fst ++ [encodeCommand name]) ∧
    (∀ q : MsgQueue, (stdin q).2.map Prod.fst <:+ q.map Prod.fst) := by
  refine ⟨?_, ?_, stdin_queue_isSuffix⟩
  · intro ops
    suffices hgen : ∀ q : MsgQueue, tailUntouched q = true →
        tailUntouched (ops.foldl applyChannelOp q) = true from hgen [] rfl
    induction ops with
    | nil => exact fun q hq => hq
    | cons op rest ih =>
      intro q hq
      rw [List.foldl_cons]
      refine ih _ ?_
      cases op with
      | send name => exact sendCommand_preserves_tailUntouched name hq
      | poll => exact stdin_preserves_tailUntouched hq
  · intro q name
    simp [sendCommand]

/-- A read source never stabilizes: no successful read matches the previous
successful read (the one with only thrown reads in between) with equal
non-zero byte length. -/
def NeverStabilizes (read : ReadSource) : Prop :=
  ∀ j k b b2, j < k → read j = some b → read k = some b2 →
    (∀ i, j < i → i < k → read i = none) → ¬(0 < b.length ∧ b.length = b2.length)

/-- Loop invariant of the poller: `buffer` is the last successful read among
attempts before `k`, or `none` when every earlier attempt threw. -/
def LastSuccess (read : ReadSource) (k : Nat) (buffer : Option (List Nat)) : Prop :=
  (buffer = none ∧ ∀ i < k, read i = none) ∨
  (∃ j b, j < k ∧ read j = some b ∧ buffer = some b ∧
    ∀ i, j < i → i < k → read i = none)

/-- The invariant survives a thrown read at attempt `k`. -/
theorem lastSuccess_step_none {read : ReadSource} {k : Nat}
    {buffer : Option (List Nat)} (hinv : LastSuccess read k buffer)
    (hr : read k = none) : LastSuccess read (k + 1) buffer := by
  rcases hinv with ⟨hb, hall⟩ | ⟨j, b, hj, hrj, hb, hgap⟩
  · refine Or.inl ⟨hb, fun i hi => ?_⟩
    rcases Nat.lt_succ_iff_lt_or_eq.mp hi with h | h
    · exact hall i h
    · rw [h]; exact hr
  · refine Or.inr ⟨j, b, Nat.lt_succ_of_lt hj, hrj, hb, fun i hji hik => ?_⟩
    rcases Nat.lt_succ_iff_lt_or_eq.mp hik with h | h
    · exact hgap i hji h
    · rw [h]; exact hr

/-- The invariant after a successful read at attempt `k`. -/
theorem lastSuccess_step_some {read : ReadSource} {k : Nat} {nb : List Nat}
    (hr : read k = some nb) : LastSuccess read (k + 1) (some nb) :=
  Or.inr ⟨k, nb, Nat.lt_succ_self k, hr, rfl, fun _i hki hik =>
    ((Nat.lt_irrefl k (Nat.lt_of_lt_of_le hki (Nat.lt_succ_iff.mp hik))).elim)⟩

/-- On a never-stabilizing source the loop exhausts its fuel: every admitted
attempt is made and the `isFinished` flag is never set. -/
theorem pollGo_of_neverStabilizes {read : ReadSource} (hNS : NeverStabilizes read) :
    ∀ (fuel k : Nat) (buffer : Option (List Nat)), LastSuccess read k buffer →
      (pollGo read fuel k buffer).finished = false ∧
      (pollGo read fuel k buffer).attempts = fuel := by
  intro fuel
  induction fuel with
  | zero => exact fun k buffer _ => ⟨rfl, rfl⟩
  | succ fuel ih =>
    intro k buffer hinv
    cases hr : read k with
    | none =>
      have hrec := ih (k + 1) buffer (lastSuccess_step_none hinv hr)
      simp only [pollGo, hr]
      exact ⟨hrec.1, by rw [hrec.2]⟩
    | some nb =>
      have hst : isStable buffer nb = false := by
        rcases hinv with ⟨hb, _⟩ | ⟨j, b, hj, hrj, hb, hgap⟩
        · rw [hb]; rfl
        · rw [hb]
          have hns := hNS j k b nb hj hrj hr hgap
          simp only [isStable, Bool.and_eq_false_iff, decide_eq_false_iff_not,
            beq_eq_false_iff_ne]
          exact not_and_or.mp hns
      have hrec := ih (k + 1) (some nb) (lastSuccess_step_some hr)
      simp only [pollGo, hr, hst, Bool.false_eq_true, if_false]
      exact ⟨hrec.1, by rw [hrec.2]⟩

/-- C2, amended: on every read source that never stabilizes, the poller with
retry ceiling `maxRetries` rejects with the timeout error after exactly
`maxRetries + 1` read attempts — the loop admits `retryTimes = 0 .. maxRetries`
inclusive — never fewer, never more. -/
theorem poller_timeout_attempts (read : ReadSource) (maxRetries : Nat)
    (h : NeverStabilizes read) :
    (waitForEmscriptenFile read maxRetries).attempts = maxRetries + 1 ∧
    (waitForEmscriptenFile read maxRetries).result = none := by
  have h0 : LastSuccess read 0 none :=
    Or.inl ⟨rfl, fun i hi => absurd hi (Nat.not_lt_zero i)⟩
  have hg := pollGo_of_neverStabilizes h (maxRetries + 1) 0 none h0
  unfold waitForEmscriptenFile
  exact ⟨hg.2, by simp [hg.1]⟩

/-- C2, witness: the always-throwing source never stabilizes; with ceiling 3
the poller times out after exactly 4 attempts. -/
theorem poller_timeout_attempts_witness :
    (waitForEmscriptenFile (fun _ => none) 3).attempts = 3 + 1 ∧
    (waitForEmscriptenFile (fun _ => none) 3).result = none :=
  poller_timeout_attempts (fun _ => none) 3
    (fun _ _ _ _ _ hj _ _ => absurd hj (by simp))

/-- When the loop sets `isFinished`, the returned buffer is the read of some
attempt `m` whose byte length equals the non-zero byte length of the previous
successful read `j` — only thrown attempts lie between `j` and `m`. -/
theorem pollGo_finished_buffer {read : ReadSource} :
    ∀ (fuel k : Nat) (buffer : Option (List Nat)), LastSuccess read k buffer →
      (pollGo read fuel k buffer).finished = true →
      ∃ j m b b2, j < m ∧ read j = some b ∧ read m = some b2 ∧
        (∀ i, j < i → i < m → read i = none) ∧
        0 < b.length ∧ b.length = b2.length ∧
        (pollGo read fuel k buffer).buffer = some b2 := by
  intro fuel
  induction fuel with
  | zero => exact fun k buffer _ hfin => absurd hfin (by simp [pollGo])
  | succ fuel ih =>
    intro k buffer hinv hfin
    cases hr : read k with
    | none =>
      simp only [pollGo, hr] at hfin ⊢
      obtain ⟨j, m, b, b2, hjm, hrj, hrm, hgap, hpos, hlen, hbuf⟩ :=
        ih (k + 1) buffer (lastSuccess_step_none hinv hr) hfin
      exact ⟨j, m, b, b2, hjm, hrj, hrm, hgap, hpos, hlen, hbuf⟩
    | some nb =>
      by_cases hst : isStable buffer nb = true
      · rcases hinv with ⟨hb, _⟩ | ⟨j, b, hj, hrj, hb, hgap⟩
        · rw [hb] at hst
          exact absurd hst (by simp [isStable])
        · rw [hb] at hst
          have hlen : 0 < b.length ∧ b.length = nb.length := by
            simpa [isStable] using hst
          refine ⟨j, k, b, nb, hj, hrj, hr, hgap, hlen.1, hlen.2, ?_⟩
          rw [hb]
          simp [pollGo, hr, hst]
      · rw [Bool.not_eq_true] at hst
        simp only [pollGo, hr, hst, Bool.false_eq_true, if_false] at hfin ⊢
        obtain ⟨j, m, b, b2, hjm, hrj, hrm, hgap, hpos, hlen, hbuf⟩ :=
          ih (k + 1) (some nb) (lastSuccess_step_some hr) hfin
        exact ⟨j, m, b, b2, hjm, hrj, hrm, hgap, hpos, hlen, hbuf⟩

/-- The delay trace of the loop: before the read of attempt `k + i` the loop
waits `min(100 * 2 ^ (k + i), 1000)`. -/
theorem pollGo_delays (read : ReadSource) :
    ∀ (fuel k : Nat) (buffer : Option (List Nat)),
      (pollGo read fuel k buffer).delays =
        (List.range (pollGo read fuel k buffer).attempts).map
          (fun i => min (100 * 2 ^ (k + i)) 1000) := by
  intro fuel
  induction fuel with
  | zero => intro k buffer; rfl
  | succ fuel ih =>
    intro k buffer
    have hstep : ∀ n, min (100 * 2 ^ k) 1000 ::
        (List.range n).map (fun i => min (100 * 2 ^ (k + 1 + i)) 1000) =
        (List.range (n + 1)).map (fun i => min (100 * 2 ^ (k + i)) 1000) := by
      intro n
      rw [List.range_succ_eq_map, List.map_cons, List.map_map]
      refine congrArg₂ _ (by rw [Nat.add_zero]) ?_
      refine List.map_congr_left fun i _ => ?_
      simp [Function.comp, Nat.add_right_comm, Nat.succ_eq_add_one, Nat.add_comm 1 i,
        Nat.add_assoc]
    cases hr : read k with
    | none =>
      simp only [pollGo, hr]
      rw [ih (k + 1) buffer]
      exact hstep _
    | some nb =>
      by_cases hst : isStable buffer nb = true
      · simp [pollGo, hr, hst, List.range_succ]
      · rw [Bool.not_eq_true] at hst
        simp only [pollGo, hr, hst, Bool.false_eq_true, if_false]
        rw [ih (k + 1) (some nb)]
        exact hstep _

/-- C5, amended: the poller returns bytes only when some read's byte length
matches the previous *successful* read's non-zero byte length (consecutive
among successful reads — thrown polls may lie in between; a single read is
never sufficient), and before the read of attempt `k` it waits
`min(100 * 2 ^ k, 1000)` time units. -/
theorem poller_stability_and_backoff (read : ReadSource) (maxRetries : Nat) :
    (∀ bytes, (waitForEmscriptenFile read maxRetries).result = some bytes →
      ∃ j m b, j < m ∧ read j = some b ∧ read m = some bytes ∧
        (∀ i, j < i → i < m → read i = none) ∧
        0 < b.length ∧ b.length = bytes.length) ∧
    (waitForEmscriptenFile read maxRetries).delays =
      (List.range (waitForEmscriptenFile read maxRetries).attempts).map
        (fun k => min (100 * 2 ^ k) 1000) := by
  constructor
  · intro bytes hres
    have h0 : LastSuccess read 0 none :=
      Or.inl ⟨rfl, fun i hi => absurd hi (Nat.not_lt_zero i)⟩
    unfold waitForEmscriptenFile at hres
    by_cases hfin : (pollGo read (maxRetries + 1) 0 none).finished = true
    · obtain ⟨j, m, b, b2, hjm, hrj, hrm, hgap, hpos, hlen, hbuf⟩ :=
        pollGo_finished_buffer (maxRetries + 1) 0 none h0 hfin
      simp only [hfin, if_true] at hres
      rw [hres] at hbuf
      obtain rfl : bytes = b2 := by injection hbuf
      exact ⟨j, m, b, hjm, hrj, hrm, hgap, hpos, hlen⟩
    · rw [Bool.not_eq_true] at hfin
      simp [hfin] at hres
  · have hd := pollGo_delays read (maxRetries + 1) 0 none
    simp only [Nat.zero_add] at hd
    simpa [waitForEmscriptenFile] using hd

/-- C5, witness: `gapRead` stabilizes (reads 0 and 2 both return five bytes,
read 1 throws), so the returned bytes satisfy the stability characterization,
and the recorded delays follow the capped exponential backoff schedule. -/
theorem poller_stability_and_backoff_witness :
    (∃ j m b, j < m ∧ gapRead j = some b ∧ gapRead m = some [6, 7, 8, 9, 10] ∧
      (∀ i, j < i → i < m → gapRead i = none) ∧
      0 < b.length ∧ b.length = [6, 7, 8, 9, 10].length) ∧
    (waitForEmscriptenFile gapRead 30).delays =
      (List.range (waitForEmscriptenFile gapRead 30).attempts).map
        (fun k => min (100 * 2 ^ k) 1000) :=
  ⟨(poller_stability_and_backoff gapRead 30).1 [6, 7, 8, 9, 10] (by decide),
    (poller_stability_and_backoff gapRead 30).2⟩

/-- C7, counterexample: a string value containing `__` defeats the
marker-based quoting — `{a: "x__y"}` renders as `a = "x"y"`, not as the
double-quoted `a = "x__y"` the claim promises for every flat mapping. -/
theorem config_double_underscore_value_breaks :
    writeConfigFileContent [("a".data, .strVal "x__y".data)] = "a = \"x\"y\"\n".data ∧
    writeConfigFileContent [("a".data, .strVal "x__y".data)] ≠ "a = \"x__y\"\n".data := by
  decide

/-- No two adjacent underscores anywhere in the string. -/
def noDoubleUnderscore : List Char → Bool
  | [] => true
  | [_] => true
  | c :: d :: rest => !(c = '_' && d = '_') && noDoubleUnderscore (d :: rest)

/-- A key the serializer passes through verbatim: no `__` run and none of the
characters that trigger `ini`'s quoting or escaping. -/
def plainKey (k : List Char) : Bool :=
  noDoubleUnderscore k &&
  k.all fun c =>
    !(c = '=' || c = '\r' || c = '\n' || c = ';' || c = '#' ||
      c = '"' || c = singleQuote || c = '[' || jsIsWhitespace c)

/-- A rendered value the `__` wrapping quotes correctly: no underscore and
none of the characters `ini`'s `safe` reacts to. -/
def plainValueChars (t : List Char) : Bool :=
  t.all fun c => !(c = '_' || c = '=' || c = '\r' || c = '\n' || c = ';' || c = '#')

/-- Source: `replaceAll('__', '"')` passes over a non-underscore head. -/
theorem replaceAllUU_cons_ne {c : Char} (l : List Char) (h : ¬c = '_') :
    replaceAllUU (c :: l) = c :: replaceAllUU l := by
  cases l with
  | nil => rfl
  | cons d rest => simp [replaceAllUU, h]

/-- Source: `replaceAll('__', '"')` passes over a prefix containing no underscore. -/
theorem replaceAllUU_append_no_underscore {l1 : List Char} (l2 : List Char)
    (h : ∀ c ∈ l1, ¬c = '_') :
    replaceAllUU (l1 ++ l2) = l1 ++ replaceAllUU l2 := by
  induction l1 with
  | nil => rfl
  | cons c rest ih =>
    rw [List.cons_append, replaceAllUU_cons_ne _ (h c (List.mem_cons_self c rest)),
      ih fun x hx => h x (List.mem_cons_of_mem c hx)]
    rfl

/-- Source: `noDoubleUnderscore` holds of a tail. -/
theorem noDoubleUnderscore_tail {c : Char} {rest : List Char}
    (h : noDoubleUnderscore (c :: rest) = true) : noDoubleUnderscore rest = true := by
  cases rest with
  | nil => rfl
  | cons d r2 =>
    have := h
    simp only [noDoubleUnderscore, Bool.and_eq_true] at this
    exact this.2

/-- Source: `replaceAll('__', '"')` passes over a prefix with no `__` run, provided
the continuation does not start with an underscore. -/
theorem replaceAllUU_append_noDU {k : List Char} (l2 : List Char)
    (hk : noDoubleUnderscore k = true) (h2 : ∀ c ∈ l2.head?, ¬c = '_') :
    replaceAllUU (k ++ l2) = k ++ replaceAllUU l2 := by
  induction k with
  | nil => rfl
  | cons c rest ih =>
    by_cases hc : c = '_'
    · subst hc
      cases rest with
      | nil =>
        cases l2 with
        | nil => rfl
        | cons e t =>
          have he : ¬e = '_' := h2 e rfl
          simp [replaceAllUU, he]
      | cons d rest2 =>
        have hd : ¬d = '_' := by
          have h1 := hk
          simp [noDoubleUnderscore] at h1
          exact h1.1
        have hstep : replaceAllUU ('_' :: d :: (rest2 ++ l2)) =
            '_' :: replaceAllUU (d :: (rest2 ++ l2)) := by
          simp [replaceAllUU, hd]
        calc replaceAllUU (('_' :: d :: rest2) ++ l2)
            = '_' :: replaceAllUU ((d :: rest2) ++ l2) := hstep
          _ = '_' :: ((d :: rest2) ++ replaceAllUU l2) := by
              rw [ih (noDoubleUnderscore_tail hk)]
          _ = ('_' :: d :: rest2) ++ replaceAllUU l2 := rfl
    · rw [List.cons_append, replaceAllUU_cons_ne _ hc, ih (noDoubleUnderscore_tail hk)]
      rfl

/-- Source: `replaceAll('__', '"')` turns a leading `__` into `"`. -/
theorem replaceAllUU_marker (l : List Char) :
    replaceAllUU ('_' :: '_' :: l) = '"' :: replaceAllUU l := by
  simp [replaceAllUU]

/-- Source: `;`/`#` escaping is the identity on strings without those characters. -/
theorem escapeSemiHash_eq_self {l : List Char}
    (h : ∀ c ∈ l, ¬c = ';' ∧ ¬c = '#') : escapeSemiHash l = l := by
  induction l with
  | nil => rfl
  | cons c rest ih =>
    have hc := h c (List.mem_cons_self c rest)
    simp only [escapeSemiHash, List.flatMap_cons] at *
    rw [if_neg hc.1, if_neg hc.2]
    rw [ih fun x hx => h x (List.mem_cons_of_mem c hx)]
    rfl

/-- Source: `trim` is the identity when neither end of the string is JS
whitespace. -/
theorem jsTrim_eq_self {l : List Char}
    (h1 : ∀ c ∈ l.head?, jsIsWhitespace c = false)
    (h2 : ∀ c ∈ l.getLast?, jsIsWhitespace c = false) : jsTrim l = l := by
  unfold jsTrim
  have hA : l.dropWhile jsIsWhitespace = l := by
    cases l with
    | nil => rfl
    | cons c t =>
      rw [List.dropWhile_cons, if_neg]
      simp [h1 c rfl]
  rw [hA]
  have hB : l.reverse.dropWhile jsIsWhitespace = l.reverse := by
    cases hrev : l.reverse with
    | nil => rfl
    | cons c t =>
      have hlast : l.getLast? = some c := by
        rw [← List.head?_reverse, hrev]
        rfl
      rw [List.dropWhile_cons, if_neg]
      simp [h2 c (by rw [hlast]; rfl)]
  rw [hB, List.reverse_reverse]

/-- A character in `head?` is a member of the list. -/
theorem mem_of_head?Char {c : Char} {l : List Char} (hc : c ∈ l.head?) : c ∈ l := by
  cases l with
  | nil => exact Option.noConfusion hc
  | cons a t =>
    have ha : a = c := by simpa using hc
    rw [← ha]
    exact List.mem_cons_self a t

/-- A character in `getLast?` is a member of the list. -/
theorem mem_of_getLast?Char {c : Char} {l : List Char} (hc : c ∈ l.getLast?) : c ∈ l := by
  rcases List.mem_getLast?_eq_getLast hc with ⟨hne, rfl⟩
  exact List.getLast_mem hne

/-- Source: `safe` passes a plain key through verbatim. -/
theorem iniSafe_plainKey {k : List Char} (h : plainKey k = true) : iniSafe k = k := by
  have hchars : ∀ c ∈ k, ¬c = '=' ∧ ¬c = '\r' ∧ ¬c = '\n' ∧ ¬c = ';' ∧ ¬c = '#' ∧
      ¬c = '"' ∧ ¬c = singleQuote ∧ ¬c = '[' ∧ jsIsWhitespace c = false := by
    have h2 := h
    simp only [plainKey, Bool.and_eq_true] at h2
    intro c hc
    have := (List.all_eq_true.mp h2.2) c hc
    simp only [Bool.not_eq_true', Bool.or_eq_false_iff, decide_eq_false_iff_not] at this
    tauto
  have hmemhead : ∀ c ∈ k.head?, c ∈ k := fun c hc => mem_of_head?Char hc
  have hmemlast : ∀ c ∈ k.getLast?, c ∈ k := fun c hc => mem_of_getLast?Char hc
  unfold iniSafe
  rw [if_neg, escapeSemiHash_eq_self fun c hc =>
    ⟨(hchars c hc).2.2.2.1, (hchars c hc).2.2.2.2.1⟩]
  simp only [Bool.or_eq_true, Bool.and_eq_true, List.any_eq_true, decide_eq_true_eq,
    not_or]
  refine ⟨⟨⟨?_, ?_⟩, ?_⟩, ?_⟩
  · rintro ⟨c, hc, hcs⟩
    rcases hcs with (h | h) | h
    · exact (hchars c hc).1 h
    · exact (hchars c hc).2.1 h
    · exact (hchars c hc).2.2.1 h
  · intro hhead
    have : '[' ∈ k := hmemhead '[' (by rw [hhead]; rfl)
    exact (hchars _ this).2.2.2.2.2.2.2.1 rfl
  · rintro ⟨-, hq⟩
    unfold isQuotedStr at hq
    cases hh : k.head? with
    | none => rw [hh] at hq; exact Bool.noConfusion hq
    | some a =>
      cases hl : k.getLast? with
      | none => rw [hh, hl] at hq; exact Bool.noConfusion hq
      | some b =>
        rw [hh, hl] at hq
        simp only [Bool.or_eq_true, Bool.and_eq_true, decide_eq_true_eq] at hq
        have ha := hchars a (hmemhead a (by rw [hh]; rfl))
        rcases hq with ⟨h1, -⟩ | ⟨h1, -⟩
        · exact ha.2.2.2.2.2.1 h1
        · exact ha.2.2.2.2.2.2.1 h1
  · simp only [decide_eq_true_eq, not_not]
    exact jsTrim_eq_self
      (fun c hc => (hchars c (hmemhead c hc)).2.2.2.2.2.2.2.2)
      (fun c hc => (hchars c (hmemlast c hc)).2.2.2.2.2.2.2.2)

/-- Source: `safe` passes a marker-wrapped plain value through verbatim. -/
theorem iniSafe_wrapped {t : List Char} (h : plainValueChars t = true) :
    iniSafe (wrapMarkers t) = wrapMarkers t := by
  have hchars : ∀ c ∈ t, ¬c = '_' ∧ ¬c = '=' ∧ ¬c = '\r' ∧ ¬c = '\n' ∧
      ¬c = ';' ∧ ¬c = '#' := by
    intro c hc
    have := (List.all_eq_true.mp h) c hc
    simp only [Bool.not_eq_true', Bool.or_eq_false_iff, decide_eq_false_iff_not] at this
    tauto
  have hw : wrapMarkers t = '_' :: '_' :: (t ++ ['_', '_']) := by
    simp [wrapMarkers]
  have hmem : ∀ c ∈ wrapMarkers t, c = '_' ∨ c ∈ t := by
    intro c hc
    rw [hw] at hc
    rcases hc with _ | ⟨_, hc⟩
    · exact Or.inl rfl
    · rcases hc with _ | ⟨_, hc⟩
      · exact Or.inl rfl
      · rcases List.mem_append.mp hc with hm | hm
        · exact Or.inr hm
        · rcases hm with _ | ⟨_, hm⟩
          · exact Or.inl rfl
          · rcases hm with _ | ⟨_, hm⟩
            · exact Or.inl rfl
            · exact absurd hm (List.not_mem_nil c)
  have hhead : (wrapMarkers t).head? = some '_' := by rw [hw]; rfl
  have hlast : (wrapMarkers t).getLast? = some '_' := by
    have : wrapMarkers t = ("__".data ++ t ++ ['_']) ++ ['_'] := by
      simp [wrapMarkers, List.append_assoc]
    rw [this, List.getLast?_concat]
  unfold iniSafe
  rw [if_neg, escapeSemiHash_eq_self ?esc]
  case esc =>
    intro c hc
    rcases hmem c hc with h | h
    · subst h
      exact ⟨by decide, by decide⟩
    · exact ⟨(hchars c h).2.2.2.2.1, (hchars c h).2.2.2.2.2⟩
  simp only [Bool.or_eq_true, Bool.and_eq_true, List.any_eq_true, decide_eq_true_eq,
    not_or]
  refine ⟨⟨⟨?_, ?_⟩, ?_⟩, ?_⟩
  · rintro ⟨c, hc, hcs⟩
    rcases hmem c hc with h | h
    · subst h
      rcases hcs with (h | h) | h <;> exact absurd h (by decide)
    · rcases hcs with (hx | hx) | hx
      · exact (hchars c h).2.1 hx
      · exact (hchars c h).2.2.1 hx
      · exact (hchars c h).2.2.2.1 hx
  · intro hx
    rw [hhead] at hx
    have : '_' = '[' := by injection hx
    exact absurd this (by decide)
  · rintro ⟨-, hq⟩
    unfold isQuotedStr at hq
    rw [hhead, hlast] at hq
    simp at hq
    exact absurd hq (by decide)
  · simp only [decide_eq_true_eq, not_not]
    refine jsTrim_eq_self ?_ ?_
    · intro c hc
      rw [hhead] at hc
      cases hc
      decide
    · intro c hc
      rw [hlast] at hc
      cases hc
      decide

/-- Source: `replaceAll('__', '"')` turns one serialized line
`key = __value__\n` into `key = "value"\n` and proceeds with the rest. -/
theorem replaceAllUU_lineStep (k t tail : List Char)
    (hk : plainKey k = true) (ht : plainValueChars t = true) :
    replaceAllUU (k ++ ' ' :: '=' :: ' ' :: (wrapMarkers t ++ '\n' :: tail)) =
      k ++ ' ' :: '=' :: ' ' :: '"' :: (t ++ '"' :: '\n' :: replaceAllUU tail) := by
  have hknd : noDoubleUnderscore k = true := by
    have h2 := hk
    simp only [plainKey, Bool.and_eq_true] at h2
    exact h2.1
  have htc : ∀ c ∈ t, ¬c = '_' := by
    intro c hc
    have := (List.all_eq_true.mp ht) c hc
    simp only [Bool.not_eq_true', Bool.or_eq_false_iff, decide_eq_false_iff_not] at this
    tauto
  rw [replaceAllUU_append_noDU _ hknd]
  · congr 1
    rw [replaceAllUU_cons_ne _ (by decide), replaceAllUU_cons_ne _ (by decide),
      replaceAllUU_cons_ne _ (by decide)]
    rw [show wrapMarkers t ++ '\n' :: tail =
      '_' :: '_' :: ((t ++ ['_', '_']) ++ '\n' :: tail) from by simp [wrapMarkers]]
    rw [replaceAllUU_marker, List.append_assoc, replaceAllUU_append_no_underscore _ htc]
    have hmk : replaceAllUU (['_', '_'] ++ '\n' :: tail) =
        '"' :: ('\n' :: replaceAllUU tail) := by
      show replaceAllUU ('_' :: '_' :: ('\n' :: tail)) = _
      rw [replaceAllUU_marker, replaceAllUU_cons_ne _ (by decide)]
    rw [hmk]
  · intro c hc
    have hsp : (' ' :: '=' :: ' ' :: (wrapMarkers t ++ '\n' :: tail)).head? = some ' ' := rfl
    rw [hsp] at hc
    have : ' ' = c := by simpa using hc
    rw [← this]
    decide

/-- C7, amended: for a flat config whose keys contain no `__` run and none of
the characters the `ini` serializer quotes or escapes, and whose rendered
values contain no underscore and none of those characters (boolean and number
renderings always qualify), the serializer emits one `key = "value"` line per
entry, in order, the value double-quoted regardless of its original type. -/
theorem config_lines_double_quoted (config : List (List Char × ConfigValue))
    (h : ∀ kv ∈ config, plainKey kv.1 = true ∧ plainValueChars (valueText kv.2) = true) :
    writeConfigFileContent config =
      config.flatMap fun kv =>
        kv.1 ++ " = ".data ++ '"' :: (valueText kv.2 ++ ['"', '\n']) := by
  induction config with
  | nil => rfl
  | cons kv rest ih =>
    obtain ⟨k, v⟩ := kv
    have hh := h (k, v) (List.mem_cons_self _ _)
    have hrest : ∀ kv ∈ rest, plainKey kv.1 = true ∧
        plainValueChars (valueText kv.2) = true :=
      fun kv hm => h kv (List.mem_cons_of_mem _ hm)
    unfold writeConfigFileContent at ih ⊢
    simp only [List.map_cons, iniStringifyFlat, List.flatMap_cons]
    rw [iniSafe_plainKey hh.1, iniSafe_wrapped hh.2]
    simp only [List.append_assoc, List.cons_append, List.nil_append]
    rw [replaceAllUU_lineStep k (valueText v) _ hh.1 hh.2]
    have ih2 := ih hrest
    simp only [iniStringifyFlat, List.append_assoc, List.cons_append,
      List.nil_append] at ih2
    rw [ih2]

/-- C7, witness: the mapping `{a: true, b: 4, c: "x"}` serializes to one
double-quoted assignment per line. -/
theorem config_lines_double_quoted_witness :
    writeConfigFileContent [("a".data, .boolVal true), ("b".data, .numVal 4),
        ("c".data, .strVal "x".data)] =
      "a = \"true\"\nb = \"4\"\nc = \"x\"\n".data := by
  rw [config_lines_double_quoted _ (by decide)]
  decide

end Emu
